import Mathlib

/-!
Verification of the PyBeam 2D beam finite-element library.

This file gives a shallow embedding of the core numeric routines of the
repository (`src/pybeam/system_matrices.py`, `assembly.py`,
`modal_parameters.py`, `simulation.py`, `fatigue.py`,
`datamodels.py`) and proves the specified properties about them.

Floating-point arrays are embedded as exact rational (`ℚ`) or real (`ℝ`)
matrices.  Trigonometric entries (`np.cos`, `np.sin` of an element angle)
are embedded over `ℝ` where a claim is about the angle itself, and as a
pair of rational parameters `(c, s)` satisfying `c ^ 2 + s ^ 2 = 1` where
a computable development is needed.
-/

open Matrix

namespace PyBeam

/-! ## Helper lemmas for indexing length-6 vector literals -/

lemma vec6_zero {α : Type} (a b c d e f : α) : ![a, b, c, d, e, f] 0 = a := rfl

lemma vec6_one {α : Type} (a b c d e f : α) : ![a, b, c, d, e, f] 1 = b := rfl

lemma vec6_two {α : Type} (a b c d e f : α) : ![a, b, c, d, e, f] 2 = c := rfl

lemma vec6_three {α : Type} (a b c d e f : α) : ![a, b, c, d, e, f] 3 = d := rfl

lemma vec6_four {α : Type} (a b c d e f : α) : ![a, b, c, d, e, f] 4 = e := rfl

lemma vec6_five {α : Type} (a b c d e f : α) : ![a, b, c, d, e, f] 5 = f := rfl

/-! ## Element matrices (`system_matrices.py`) -/

/-- Embedding of `create_rotation_matrix` (`system_matrices.py`): the 6×6
rotation matrix built from `np.cos(element.angle)` and
`np.sin(element.angle)`. -/
noncomputable def create_rotation_matrix (angle : ℝ) : Matrix (Fin 6) (Fin 6) ℝ :=
  !![Real.cos angle, Real.sin angle, 0, 0, 0, 0;
     -Real.sin angle, Real.cos angle, 0, 0, 0, 0;
     0, 0, 1, 0, 0, 0;
     0, 0, 0, Real.cos angle, Real.sin angle, 0;
     0, 0, 0, -Real.sin angle, Real.cos angle, 0;
     0, 0, 0, 0, 0, 1]

/-- Rational variant of `create_rotation_matrix`, the cosine and sine of
`element.angle` being carried as parameters `c` and `s` (the source only
ever uses the angle through `np.cos`/`np.sin`). -/
def create_rotation_matrix_q (c s : ℚ) : Matrix (Fin 6) (Fin 6) ℚ :=
  !![c, s, 0, 0, 0, 0;
     -s, c, 0, 0, 0, 0;
     0, 0, 1, 0, 0, 0;
     0, 0, 0, c, s, 0;
     0, 0, 0, -s, c, 0;
     0, 0, 0, 0, 0, 1]

/-- Embedding of `create_stiffness_matrix` (`system_matrices.py`) over `ℚ`,
from the element scalars `E = modulus_of_elasticity`, `A = area`,
`L = length`, `I = moment_of_inertia`. -/
def create_stiffness_matrix (E A L I : ℚ) : Matrix (Fin 6) (Fin 6) ℚ :=
  let k_1 := E * A / L
  let k_2 := 12 * E * I / L ^ 3
  let k_3 := 6 * E * I / L ^ 2
  let k_4 := 2 * E * I / L
  !![k_1, 0, 0, -k_1, 0, 0;
     0, k_2, k_3, 0, -k_2, k_3;
     0, k_3, 2 * k_4, 0, -k_3, k_4;
     -k_1, 0, 0, k_1, 0, 0;
     0, -k_2, -k_3, 0, k_2, -k_3;
     0, k_3, k_4, 0, -k_3, 2 * k_4]

/-- Embedding of `create_mass_matrix` (`system_matrices.py`) over `ℚ`, from
`rho = density`, `A = area`, `L = length`. -/
def create_mass_matrix (rho A L : ℚ) : Matrix (Fin 6) (Fin 6) ℚ :=
  (rho * A * L / 420) •
    !![140, 0, 0, 70, 0, 0;
       0, 156, 22 * L, 0, 54, -13 * L;
       0, 22 * L, 4 * L ^ 2, 0, 13 * L, -3 * L ^ 2;
       70, 0, 0, 140, 0, 0;
       0, 54, 13 * L, 0, 156, -22 * L;
       0, -13 * L, -3 * L ^ 2, 0, -22 * L, 4 * L ^ 2]

/-- C9: for every element angle, `create_rotation_matrix` returns an
orthogonal matrix: `Rᵀ · R` is the 6×6 identity.  The block-diagonal shape
built from `cos(angle)` and `sin(angle)`, with the rotational DOF of each
node left unaffected, is literal in the definition. -/
theorem create_rotation_matrix_orthogonal (angle : ℝ) :
    (create_rotation_matrix angle)ᵀ * create_rotation_matrix angle = 1 := by
  have h := Real.sin_sq_add_cos_sq angle
  ext i j
  rw [Matrix.mul_apply, Fin.sum_univ_six]
  fin_cases i <;> fin_cases j <;>
    simp only [create_rotation_matrix, Matrix.transpose_apply, Matrix.of_apply,
      Matrix.one_apply, vec6_zero, vec6_one, vec6_two, vec6_three, vec6_four,
      vec6_five] <;>
    norm_num [Fin.ext_iff] <;> nlinarith [h]

/-! ## Eurocode SN curve (`datamodels.py`) -/

/-- Embedding of the `SnCurveEurocode` attrs class (`datamodels.py`): detail
category, constant-amplitude fatigue limit and cutoff limit. -/
structure SnCurveEurocode where
  d_sigma_c : ℝ
  d_sigma_d : ℝ
  d_sigma_l : ℝ

/-- Embedding of `SnCurveEurocode._set_d_sigma_d`, the attrs default for
`d_sigma_d`: `(2 / 5) ** (1 / 3) * d_sigma_c`. -/
noncomputable def _set_d_sigma_d (d_sigma_c : ℝ) : ℝ :=
  (2 / 5 : ℝ) ^ ((1 : ℝ) / 3) * d_sigma_c

/-- Embedding of `SnCurveEurocode._set_d_sigma_l`, the attrs default for
`d_sigma_l`: `(1 / 20) ** (1 / 5) * d_sigma_d`. -/
noncomputable def _set_d_sigma_l (d_sigma_d : ℝ) : ℝ :=
  (1 / 20 : ℝ) ^ ((1 : ℝ) / 5) * d_sigma_d

/-- Construction `SnCurveEurocode(d_sigma_c=c)` with both attrs defaults in
place. -/
noncomputable def SnCurveEurocode.mk_default (c : ℝ) : SnCurveEurocode :=
  ⟨c, _set_d_sigma_d c, _set_d_sigma_l (_set_d_sigma_d c)⟩

/-- Embedding of `SnCurveEurocode.get_cycles_at_range` (`datamodels.py`).
The `np.inf` return value is embedded as `none`; a finite cycle count `N`
is `some N`. -/
noncomputable def SnCurveEurocode.get_cycles_at_range (curve : SnCurveEurocode)
    (stress_range : ℝ) : Option ℝ :=
  if stress_range ≥ curve.d_sigma_d then
    some (2000000 * curve.d_sigma_c ^ (3 : ℕ) / stress_range ^ (3 : ℕ))
  else if curve.d_sigma_d > stress_range ∧ stress_range ≥ curve.d_sigma_l then
    some (5000000 * curve.d_sigma_d ^ (5 : ℕ) / stress_range ^ (5 : ℕ))
  else
    none

lemma d_sigma_d_pos : 0 < (SnCurveEurocode.mk_default 125).d_sigma_d := by
  have : (0 : ℝ) < (2 / 5 : ℝ) ^ ((1 : ℝ) / 3) :=
    Real.rpow_pos_of_pos (by norm_num) _
  unfold SnCurveEurocode.mk_default _set_d_sigma_d
  nlinarith

lemma d_sigma_d_le : (SnCurveEurocode.mk_default 125).d_sigma_d ≤ 125 := by
  have h1 : (2 / 5 : ℝ) ^ ((1 : ℝ) / 3) ≤ 1 :=
    Real.rpow_le_one (by norm_num) (by norm_num) (by norm_num)
  unfold SnCurveEurocode.mk_default _set_d_sigma_d
  nlinarith

lemma d_sigma_l_pos : 0 < (SnCurveEurocode.mk_default 125).d_sigma_l := by
  have h1 : (0 : ℝ) < (1 / 20 : ℝ) ^ ((1 : ℝ) / 5) :=
    Real.rpow_pos_of_pos (by norm_num) _
  have h2 := d_sigma_d_pos
  unfold SnCurveEurocode.mk_default _set_d_sigma_l
  unfold SnCurveEurocode.mk_default at h2
  nlinarith

lemma d_sigma_l_lt_d :
    (SnCurveEurocode.mk_default 125).d_sigma_l <
      (SnCurveEurocode.mk_default 125).d_sigma_d := by
  have h1 : (1 / 20 : ℝ) ^ ((1 : ℝ) / 5) < 1 :=
    Real.rpow_lt_one (by norm_num) (by norm_num) (by norm_num)
  have h2 := d_sigma_d_pos
  unfold SnCurveEurocode.mk_default _set_d_sigma_l
  unfold SnCurveEurocode.mk_default at h2
  nlinarith

lemma d_cubed :
    (SnCurveEurocode.mk_default 125).d_sigma_d ^ (3 : ℕ) =
      (2 / 5 : ℝ) * 125 ^ (3 : ℕ) := by
  have h : ((2 / 5 : ℝ) ^ ((1 : ℝ) / 3)) ^ (3 : ℕ) = (2 / 5 : ℝ) := by
    rw [← Real.rpow_natCast ((2 / 5 : ℝ) ^ ((1 : ℝ) / 3)) 3,
      ← Real.rpow_mul (by norm_num)]
    norm_num
  unfold SnCurveEurocode.mk_default _set_d_sigma_d
  rw [mul_pow, h]

/-- C6: for the Eurocode SN curve with detail category 125 and default
fatigue and cutoff limits, the cycle count at stress range 125 is 2×10⁶,
at the constant-amplitude fatigue limit it is 5×10⁶, and every stress
range strictly below the cutoff limit yields infinity (`none`). -/
theorem sn_curve_eurocode_values :
    (SnCurveEurocode.mk_default 125).get_cycles_at_range 125 = some 2000000 ∧
    (SnCurveEurocode.mk_default 125).get_cycles_at_range
      (SnCurveEurocode.mk_default 125).d_sigma_d = some 5000000 ∧
    ∀ stress_range : ℝ,
      stress_range < (SnCurveEurocode.mk_default 125).d_sigma_l →
        (SnCurveEurocode.mk_default 125).get_cycles_at_range stress_range =
          none := by
  refine ⟨?_, ?_, ?_⟩
  · rw [SnCurveEurocode.get_cycles_at_range, if_pos d_sigma_d_le]
    norm_num [SnCurveEurocode.mk_default]
  · rw [SnCurveEurocode.get_cycles_at_range, if_pos le_rfl, d_cubed]
    norm_num [SnCurveEurocode.mk_default]
  · intro s hs
    have h1 : ¬ (s ≥ (SnCurveEurocode.mk_default 125).d_sigma_d) := by
      have := d_sigma_l_lt_d
      push_neg
      linarith
    have h2 : ¬ ((SnCurveEurocode.mk_default 125).d_sigma_d > s ∧
        s ≥ (SnCurveEurocode.mk_default 125).d_sigma_l) := by
      rintro ⟨-, hge⟩
      linarith
    rw [SnCurveEurocode.get_cycles_at_range, if_neg h1, if_neg h2]

/-- Witness for C6: the cutoff limit is positive, and the concrete stress
range `0` lies strictly below it and is mapped to infinity. -/
theorem sn_curve_eurocode_values_witness :
    (0 : ℝ) < (SnCurveEurocode.mk_default 125).d_sigma_l ∧
    (SnCurveEurocode.mk_default 125).get_cycles_at_range 0 = none :=
  ⟨d_sigma_l_pos, sn_curve_eurocode_values.2.2 0 d_sigma_l_pos⟩

/-! ## Modal parameters (`modal_parameters.py`) -/

/-- Embedding of `_normalize_eigenvectors` (`modal_parameters.py`) over `ℝ`
(the real case relevant for a symmetric stiffness/mass pair): the
normalization factors are `np.sqrt(np.diag(Vᵀ·M·V))` and the modeshapes are
`V · diag(1 / factors)`. -/
noncomputable def _normalize_eigenvectors {n : ℕ}
    (eigenvectors mass : Matrix (Fin n) (Fin n) ℝ) : Matrix (Fin n) (Fin n) ℝ :=
  eigenvectors *
    Matrix.diagonal fun j =>
      1 / Real.sqrt ((eigenvectorsᵀ * mass * eigenvectors) j j)

lemma normalized_gram_apply {n : ℕ} (V M : Matrix (Fin n) (Fin n) ℝ)
    (i j : Fin n) :
    ((_normalize_eigenvectors V M)ᵀ * M * _normalize_eigenvectors V M) i j =
      (1 / Real.sqrt ((Vᵀ * M * V) i i)) * (Vᵀ * M * V) i j *
        (1 / Real.sqrt ((Vᵀ * M * V) j j)) := by
  have hD : (_normalize_eigenvectors V M)ᵀ * M * _normalize_eigenvectors V M =
      Matrix.diagonal (fun k => 1 / Real.sqrt ((Vᵀ * M * V) k k)) *
        (Vᵀ * M * V) *
        Matrix.diagonal (fun k => 1 / Real.sqrt ((Vᵀ * M * V) k k)) := by
    rw [_normalize_eigenvectors, Matrix.transpose_mul, Matrix.diagonal_transpose]
    simp only [Matrix.mul_assoc]
  rw [hD, Matrix.mul_diagonal, Matrix.diagonal_mul]

/-- C3: whenever every eigenvector column has positive mass norm
`(Vᵀ·M·V)ⱼⱼ`, each column `v` of `_normalize_eigenvectors V M` satisfies
`vᵀ·M·v = 1`; if in addition the eigenvectors are M-orthogonal (the Gram
matrix `Vᵀ·M·V` is diagonal), the full matrix `Wᵀ·M·W` is the identity. -/
theorem normalize_eigenvectors_mass_normalized {n : ℕ}
    (V M : Matrix (Fin n) (Fin n) ℝ)
    (hpos : ∀ j, 0 < (Vᵀ * M * V) j j) :
    (∀ j, ((_normalize_eigenvectors V M)ᵀ * M * _normalize_eigenvectors V M)
        j j = 1) ∧
    ((∀ i j, i ≠ j → (Vᵀ * M * V) i j = 0) →
      (_normalize_eigenvectors V M)ᵀ * M * _normalize_eigenvectors V M = 1) := by
  have hdiag : ∀ j,
      ((_normalize_eigenvectors V M)ᵀ * M * _normalize_eigenvectors V M) j j
        = 1 := by
    intro j
    rw [normalized_gram_apply]
    have hne : Real.sqrt ((Vᵀ * M * V) j j) ≠ 0 := by
      have := Real.sqrt_pos.mpr (hpos j)
      exact ne_of_gt this
    field_simp
  refine ⟨hdiag, ?_⟩
  intro horth
  ext i j
  by_cases hij : i = j
  · subst hij
    rw [hdiag i, Matrix.one_apply_eq]
  · rw [normalized_gram_apply, horth i j hij, Matrix.one_apply_ne hij]
    ring

/-- Concrete one-mode eigenvector matrix used by the C3 witness. -/
def eigvecW : Matrix (Fin 1) (Fin 1) ℝ := !![2]

/-- Concrete one-DOF mass matrix used by the C3 witness. -/
def massW : Matrix (Fin 1) (Fin 1) ℝ := !![1]

/-- Witness for C3 at the concrete input `V = !![2]`, `M = !![1]`. -/
theorem normalize_eigenvectors_mass_normalized_witness :
    (0 < (eigvecWᵀ * massW * eigvecW) 0 0) ∧
    ((_normalize_eigenvectors eigvecW massW)ᵀ * massW *
        _normalize_eigenvectors eigvecW massW) 0 0 = 1 := by
  have hpos : ∀ j : Fin 1, 0 < (eigvecWᵀ * massW * eigvecW) j j := by
    intro j
    fin_cases j
    norm_num [eigvecW, massW, Matrix.mul_apply, Fin.sum_univ_one]
  exact ⟨hpos 0,
    (normalize_eigenvectors_mass_normalized eigvecW massW hpos).1 0⟩

/-- Embedding of `_normalize_eigenvectors` as it operates on the complex
arrays produced by `scipy.linalg.eig`; the external `np.sqrt` routine on
complex values is the parameter `csqrt`. -/
noncomputable def _normalize_eigenvectors_c {n : ℕ} (csqrt : ℂ → ℂ)
    (eigenvectors mass : Matrix (Fin n) (Fin n) ℂ) : Matrix (Fin n) (Fin n) ℂ :=
  eigenvectors *
    Matrix.diagonal fun j =>
      1 / csqrt ((eigenvectorsᵀ * mass * eigenvectors) j j)

/-- Embedding of `get_modal_parameters` (`modal_parameters.py`).  The
external collaborators appear as parameters: `eig` is `scipy.linalg.eig`
applied to the stiffness/mass pair, `argsort` is the permutation of indices
produced by `sorted(range(len(eigenvalues)), key=...)`, and `csqrt` is
`np.sqrt`.  The function sorts the eigenpairs, takes the real part of the
square-rooted eigenvalues, and always passes the sorted eigenvectors
through `_normalize_eigenvectors`; the trailing Boolean is the `normalize`
argument of the source, which the body never reads. -/
noncomputable def get_modal_parameters {n : ℕ}
    (eig : Matrix (Fin n) (Fin n) ℂ → Matrix (Fin n) (Fin n) ℂ →
      (Fin n → ℂ) × Matrix (Fin n) (Fin n) ℂ)
    (argsort : (Fin n → ℂ) → Fin n → Fin n) (csqrt : ℂ → ℂ)
    (stiffness mass : Matrix (Fin n) (Fin n) ℂ) (normalize : Bool) :
    (Fin n → ℝ) × Matrix (Fin n) (Fin n) ℂ :=
  let ev := eig stiffness mass
  let sorting_mask := argsort ev.1
  let eigenfrequencies := fun i => csqrt (ev.1 (sorting_mask i))
  let sorted_eigenvectors := Matrix.of fun i j => ev.2 i (sorting_mask j)
  let modeshapes := _normalize_eigenvectors_c csqrt sorted_eigenvectors mass
  (fun i => (eigenfrequencies i).re, modeshapes)

/-- C10: `get_modal_parameters` never reads its `normalize` argument: the
output with `normalize = true` equals the output with `normalize = false`,
and in both cases the returned modeshapes are the mass-normalized sorted
eigenvectors. -/
theorem get_modal_parameters_normalize_independent {n : ℕ}
    (eig : Matrix (Fin n) (Fin n) ℂ → Matrix (Fin n) (Fin n) ℂ →
      (Fin n → ℂ) × Matrix (Fin n) (Fin n) ℂ)
    (argsort : (Fin n → ℂ) → Fin n → Fin n) (csqrt : ℂ → ℂ)
    (stiffness mass : Matrix (Fin n) (Fin n) ℂ) :
    get_modal_parameters eig argsort csqrt stiffness mass true =
      get_modal_parameters eig argsort csqrt stiffness mass false ∧
    (get_modal_parameters eig argsort csqrt stiffness mass false).2 =
      _normalize_eigenvectors_c csqrt
        (Matrix.of fun i j =>
          (eig stiffness mass).2 i (argsort (eig stiffness mass).1 j)) mass :=
  ⟨rfl, rfl⟩

/-! ## Newmark-beta transient integrator (`simulation.py`) -/

/-- Matrix inverse as computed by `scipy.linalg.inv` on an invertible
matrix, expressed through the adjugate:  for `det M ≠ 0` this is the true
inverse (`scipy.linalg.inv` raises on a singular input, which none of the
uses below hits). -/
def matInv {n : ℕ} (M : Matrix (Fin n) (Fin n) ℚ) : Matrix (Fin n) (Fin n) ℚ :=
  (M.det)⁻¹ • M.adjugate

/-- The three state vectors of the Newmark recursion at one time index:
displacement, velocity, acceleration columns. -/
structure NewmarkState (n : ℕ) where
  disp : Fin n → ℚ
  vel : Fin n → ℚ
  acc : Fin n → ℚ

/-- One-to-one embedding of the body of `newmark` (`simulation.py`) as a
recursion over the time-step index.  Index `0` holds the initial
conditions, with the initial acceleration computed exactly as in the
source: `la.inv(mass).dot(loads[:, 0]) - damping.dot(initial_vel) -
stiffness.dot(initial_disp)` (note that the source applies the mass
inverse to the first load column only).  Index `i + 1` performs the
per-step effective-load assembly, displacement solve and
velocity/acceleration back-substitution of the loop body. -/
def newmarkSeq {n : ℕ} (stiffness mass damping : Matrix (Fin n) (Fin n) ℚ)
    (loads : ℕ → Fin n → ℚ) (initial_disp initial_vel : Fin n → ℚ)
    (dt beta gamma : ℚ) : ℕ → NewmarkState n
  | 0 =>
    ⟨initial_disp, initial_vel,
      matInv mass *ᵥ loads 0 - damping *ᵥ initial_vel -
        stiffness *ᵥ initial_disp⟩
  | i + 1 =>
    let a_1 := 1 / (beta * dt ^ 2)
    let a_2 := 1 / (beta * dt)
    let a_3 := 1 / (2 * beta)
    let a_4 := 1 / beta
    let eff_stiff := a_1 • mass + (a_2 * gamma) • damping + stiffness
    let prev := newmarkSeq stiffness mass damping loads initial_disp
      initial_vel dt beta gamma i
    let a_eff := mass *ᵥ
      (a_1 • prev.disp + a_2 • prev.vel + (a_3 - 1) • prev.acc)
    let v_eff := damping *ᵥ
      ((gamma * a_2) • prev.disp + (gamma * a_4 - 1) • prev.vel +
        (dt * (gamma * a_3 - 1)) • prev.acc)
    let disp := matInv eff_stiff *ᵥ (loads (i + 1) + a_eff + v_eff)
    let vel := (gamma * a_2) • (disp - prev.disp) -
      (gamma * a_4 - 1) • prev.vel - (dt * (gamma * a_3 - 1)) • prev.acc
    let acc := a_1 • (disp - prev.disp - dt • prev.vel) -
      (a_3 - 1) • prev.acc
    ⟨disp, vel, acc⟩

/-- The displacement, velocity and acceleration history matrices returned
by `newmark`: entry `(d, t)` is DOF `d` at time index `t`. -/
structure NewmarkResult (n nt : ℕ) where
  displacements : Fin n → Fin nt → ℚ
  velocities : Fin n → Fin nt → ℚ
  accelerations : Fin n → Fin nt → ℚ

/-- Embedding of `newmark` (`simulation.py`).  The stiffness matrix is
`nK × nK` and the mass matrix `nM × nM` (the source checks
`stiffness.shape == mass.shape` and raises `ValueError` otherwise, which
is embedded as the `none` result: nothing is returned in that case).  The
time array has `nt + 2` entries so that `dt = time[1] - time[0]` is
defined, `loads` columns are indexed by time step, and the optional
arguments default to zero as in the source.  On the `some` path the mass
matrix is recast to the common shape witnessed by the passed check. -/
def newmark (nK nM nt : ℕ) (stiffness : Matrix (Fin nK) (Fin nK) ℚ)
    (mass : Matrix (Fin nM) (Fin nM) ℚ) (time : Fin (nt + 2) → ℚ)
    (initial_disp initial_vel : Option (Fin nK → ℚ))
    (loads : Option (ℕ → Fin nK → ℚ))
    (damping : Option (Matrix (Fin nK) (Fin nK) ℚ))
    (beta gamma : ℚ) : Option (NewmarkResult nK (nt + 2)) :=
  let damping0 := damping.getD 0
  let loads0 := loads.getD fun _ _ => 0
  let initial_disp0 := initial_disp.getD fun _ => 0
  let initial_vel0 := initial_vel.getD fun _ => 0
  if h : nK = nM then
    let mass0 := mass.submatrix (Fin.cast h) (Fin.cast h)
    let dt := time 1 - time 0
    let seq := newmarkSeq stiffness mass0 damping0 loads0 initial_disp0
      initial_vel0 dt beta gamma
    some
      ⟨fun d t => (seq t).disp d, fun d t => (seq t).vel d,
        fun d t => (seq t).acc d⟩
  else
    none

/-- C7: `newmark` fails (raises `ValueError`, embedded as `none`) exactly
when the stiffness and mass matrices differ in shape; in that case no
displacement/velocity/acceleration histories are produced, and otherwise
all three histories are returned. -/
theorem newmark_shape_check (nK nM nt : ℕ)
    (stiffness : Matrix (Fin nK) (Fin nK) ℚ)
    (mass : Matrix (Fin nM) (Fin nM) ℚ) (time : Fin (nt + 2) → ℚ)
    (initial_disp initial_vel : Option (Fin nK → ℚ))
    (loads : Option (ℕ → Fin nK → ℚ))
    (damping : Option (Matrix (Fin nK) (Fin nK) ℚ)) (beta gamma : ℚ) :
    (newmark nK nM nt stiffness mass time initial_disp initial_vel loads
        damping beta gamma = none ↔ nK ≠ nM) ∧
    (nK = nM → ∃ r, newmark nK nM nt stiffness mass time initial_disp
        initial_vel loads damping beta gamma = some r) := by
  constructor
  · unfold newmark
    split
    · rename_i h
      simp [h]
    · rename_i h
      simp [h]
  · intro h
    unfold newmark
    split
    · exact ⟨_, rfl⟩
    · exact absurd h (by assumption)

/-- One-DOF mass matrix `M = [[2]]` exhibiting the initial-acceleration
defect of `newmark`. -/
def bugMass : Matrix (Fin 1) (Fin 1) ℚ := !![2]

/-- One-DOF stiffness matrix `K = [[1]]` for the same input. -/
def bugStiffness : Matrix (Fin 1) (Fin 1) ℚ := !![1]

/-- `newmark` applied to `K = [[1]]`, `M = [[2]]`, `time = [0, 1]`,
`initial_disp = [1]`, `initial_vel = [0]`, no loads, no damping, with the
default `beta = 1/4`, `gamma = 1/2`. -/
def bugResult : Option (NewmarkResult 1 2) :=
  newmark 1 1 0 bugStiffness bugMass ![0, 1] (some ![1]) (some ![0]) none
    none (1 / 4) (1 / 2)

/-- C1 (code bug): at the input of `bugResult` the acceleration placed in
the first history column by `newmark` is `a0 = [-1]`, and it violates the
specified relation `M·a0 = f0 − C·v0 − K·u0`: here `f0 = 0`, `C = 0`,
`v0 = [0]`, `u0 = [1]`, so the right-hand side is `-1`, while
`M·a0 = -2`.  The source applies `la.inv(mass)` to the first load column
only instead of to the whole right-hand side. -/
theorem newmark_initial_acceleration_bug :
    (bugResult.map fun r => r.accelerations 0 0) = some (-1) ∧
    (bugResult.map fun r => bugMass 0 0 * r.accelerations 0 0) = some (-2) ∧
    ¬ (-2 : ℚ) = (fun _ : Fin 1 => (0 : ℚ)) 0 -
        ((0 : Matrix (Fin 1) (Fin 1) ℚ) *ᵥ ![0]) 0 -
        (bugStiffness *ᵥ ![1]) 0 := by
  refine ⟨?_, ?_, ?_⟩
  · norm_num [bugResult, newmark, newmarkSeq, bugMass, bugStiffness,
      Matrix.mulVec, Matrix.dotProduct, Fin.sum_univ_one]
  · norm_num [bugResult, newmark, newmarkSeq, bugMass, bugStiffness,
      Matrix.mulVec, Matrix.dotProduct, Fin.sum_univ_one]
  · norm_num [bugStiffness, Matrix.mulVec, Matrix.dotProduct,
      Fin.sum_univ_one]

/-! ## Assembly of global matrices (`assembly.py`) -/

/-- Rational view of a `BeamElement` together with the boundary-condition
flags of its two nodes (`datamodels.py`): material/geometric scalars, the
cosine and sine of the element angle, and the two nodes' global DOF
triples and fix flags (`fix_u`, `fix_v`, `fix_theta`). -/
structure ElemQ where
  modulus_of_elasticity : ℚ
  moment_of_inertia : ℚ
  area : ℚ
  length : ℚ
  density : ℚ
  cos_angle : ℚ
  sin_angle : ℚ
  start_dofs : Fin 3 → ℕ
  end_dofs : Fin 3 → ℕ
  start_fix : Fin 3 → Bool
  end_fix : Fin 3 → Bool

/-- The tuple `(*element.start_node.dofs, *element.end_node.dofs)` used to
scatter an element's 6×6 matrices into the global matrices. -/
def dof_element (e : ElemQ) : Fin 6 → ℕ := fun i =>
  if h : (i : ℕ) < 3 then e.start_dofs ⟨i, h⟩
  else e.end_dofs ⟨(i : ℕ) - 3, by omega⟩

/-- An element's rotated stiffness contribution
`rotation.T @ stiffness @ rotation` from the assembly loop. -/
def rotated_stiffness (e : ElemQ) : Matrix (Fin 6) (Fin 6) ℚ :=
  (create_rotation_matrix_q e.cos_angle e.sin_angle)ᵀ *
    create_stiffness_matrix e.modulus_of_elasticity e.area e.length
      e.moment_of_inertia *
    create_rotation_matrix_q e.cos_angle e.sin_angle

/-- An element's rotated mass contribution `rotation.T @ mass @ rotation`
from the assembly loop. -/
def rotated_mass (e : ElemQ) : Matrix (Fin 6) (Fin 6) ℚ :=
  (create_rotation_matrix_q e.cos_angle e.sin_angle)ᵀ *
    create_mass_matrix e.density e.area e.length *
    create_rotation_matrix_q e.cos_angle e.sin_angle

/-- Index of the last local DOF position mapped to global index `r` (numpy
fancy-index assignment with `np.ix_` lets the last duplicate win; with
distinct element DOFs there is at most one match). -/
def lastIdx (dofs : Fin 6 → ℕ) (r : ℕ) : Option (Fin 6) :=
  (List.finRange 6).reverse.find? fun i => dofs i == r

/-- Embedding of `global[np.ix_(dof_element, dof_element)] += rotated`,
acting on the global matrix as a total function of global indices. -/
def scatter_add (K : ℕ → ℕ → ℚ) (dofs : Fin 6 → ℕ)
    (B : Matrix (Fin 6) (Fin 6) ℚ) : ℕ → ℕ → ℚ := fun r c =>
  match lastIdx dofs r, lastIdx dofs c with
  | some i, some j => K r c + B i j
  | _, _ => K r c

/-- The element loop of `assemble_system_matrices` (`assembly.py`): starting
from zero global matrices, every element scatter-adds its rotated stiffness
and mass contributions at its global DOF indices. -/
def assemble_global (elements : List ElemQ) : (ℕ → ℕ → ℚ) × (ℕ → ℕ → ℚ) :=
  elements.foldl
    (fun KM e =>
      (scatter_add KM.1 (dof_element e) (rotated_stiffness e),
        scatter_add KM.2 (dof_element e) (rotated_mass e)))
    (fun _ _ => 0, fun _ _ => 0)

/-- The value a single element contributes to global entry `(r, c)`: its
rotated matrix at the local positions mapped to `r` and `c`, or `0` when
the element references neither index. -/
def element_contribution (B : Matrix (Fin 6) (Fin 6) ℚ) (dofs : Fin 6 → ℕ)
    (r c : ℕ) : ℚ :=
  match lastIdx dofs r, lastIdx dofs c with
  | some i, some j => B i j
  | _, _ => 0

lemma scatter_add_apply (K : ℕ → ℕ → ℚ) (dofs : Fin 6 → ℕ)
    (B : Matrix (Fin 6) (Fin 6) ℚ) (r c : ℕ) :
    scatter_add K dofs B r c = K r c + element_contribution B dofs r c := by
  unfold scatter_add element_contribution
  rcases lastIdx dofs r with _ | i <;> rcases lastIdx dofs c with _ | j <;>
    simp

lemma assemble_global_loop (elements : List ElemQ) (K0 M0 : ℕ → ℕ → ℚ)
    (r c : ℕ) :
    (elements.foldl
        (fun KM e =>
          (scatter_add KM.1 (dof_element e) (rotated_stiffness e),
            scatter_add KM.2 (dof_element e) (rotated_mass e)))
        (K0, M0)).1 r c =
      K0 r c + (elements.map fun e =>
        element_contribution (rotated_stiffness e) (dof_element e) r c).sum ∧
    (elements.foldl
        (fun KM e =>
          (scatter_add KM.1 (dof_element e) (rotated_stiffness e),
            scatter_add KM.2 (dof_element e) (rotated_mass e)))
        (K0, M0)).2 r c =
      M0 r c + (elements.map fun e =>
        element_contribution (rotated_mass e) (dof_element e) r c).sum := by
  induction elements generalizing K0 M0 with
  | nil => simp
  | cons e es ih =>
    simp only [List.foldl_cons, List.map_cons, List.sum_cons]
    have h := ih (scatter_add K0 (dof_element e) (rotated_stiffness e))
      (scatter_add M0 (dof_element e) (rotated_mass e))
    rw [h.1, h.2, scatter_add_apply, scatter_add_apply]
    constructor <;> ring_nf

/-- Sum-of-contributions form of the assembled global matrices: every
global entry is the sum over elements of that element's contribution. -/
lemma assemble_global_apply (elements : List ElemQ) (r c : ℕ) :
    (assemble_global elements).1 r c =
      (elements.map fun e =>
        element_contribution (rotated_stiffness e) (dof_element e) r c).sum ∧
    (assemble_global elements).2 r c =
      (elements.map fun e =>
        element_contribution (rotated_mass e) (dof_element e) r c).sum := by
  have h := assemble_global_loop elements (fun _ _ => 0) (fun _ _ => 0) r c
  simpa [assemble_global] using h

/-- C4: in a two-element assembly every global stiffness entry and every
global mass entry is the sum of the two elements' rotated local
contributions at that entry — contributions at shared DOFs are accumulated,
never overwritten. -/
theorem assemble_system_matrices_accumulates (e1 e2 : ElemQ) (r c : ℕ) :
    (assemble_global [e1, e2]).1 r c =
      element_contribution (rotated_stiffness e1) (dof_element e1) r c +
        element_contribution (rotated_stiffness e2) (dof_element e2) r c ∧
    (assemble_global [e1, e2]).2 r c =
      element_contribution (rotated_mass e1) (dof_element e1) r c +
        element_contribution (rotated_mass e2) (dof_element e2) r c := by
  have h := assemble_global_apply [e1, e2] r c
  simpa using h

/-! ## DOF reindexing (`assembly.py`, `reindex_dof`) -/

/-- Embedding of a `Node` (`datamodels.py`) as far as `reindex_dof` reads
and writes it: its `index`, boundary-condition flags and mutable DOF
triple.  A DOF is `some d` for a live integer and `none` for the `None`
marker written during reindexing. -/
structure Node where
  index : ℕ
  fix_u : Bool
  fix_v : Bool
  fix_theta : Bool
  dofs : Option ℤ × Option ℤ × Option ℤ

/-- A freshly constructed node: `dofs = (3·index, 3·index + 1,
3·index + 2)` per the attrs default `_set_dofs`. -/
def Node.initial (i : ℕ) (fu fv ft : Bool) : Node :=
  ⟨i, fu, fv, ft,
    (some (3 * (i : ℤ)), some (3 * (i : ℤ) + 1), some (3 * (i : ℤ) + 2))⟩

/-- One iteration of the inner `for i, is_fixed in enumerate(...)` loop of
`reindex_dof`: a fixed DOF bumps the shift and becomes `None`, a free DOF
is decremented by the current shift. -/
def reindexSlot (shift : ℕ) (is_fixed : Bool) (dof : Option ℤ) :
    ℕ × Option ℤ :=
  if is_fixed then (shift + 1, none)
  else (shift, dof.map fun d => d - (shift : ℤ))

/-- Processing of one node by `reindex_dof`: the three DOF slots are
visited in order `fix_u`, `fix_v`, `fix_theta`, threading the shift. -/
def reindexNode (shift : ℕ) (nd : Node) : ℕ × Node :=
  let r1 := reindexSlot shift nd.fix_u nd.dofs.1
  let r2 := reindexSlot r1.1 nd.fix_v nd.dofs.2.1
  let r3 := reindexSlot r2.1 nd.fix_theta nd.dofs.2.2
  (r3.1, ⟨nd.index, nd.fix_u, nd.fix_v, nd.fix_theta, (r1.2, r2.2, r3.2)⟩)

/-- A `BeamElement` as seen by `reindex_dof`: the two node references,
realised as indices into the node registry (the source aliases node
objects across elements; the registry keyed by `Node.index` models that
shared heap, matching the data-model invariant that node references
resolve by index). -/
structure BeamElementRef where
  start_node : ℕ
  end_node : ℕ

/-- The sequence of node visits performed by the two nested loops
`for element in elements: for node in (element.start_node,
element.end_node)`. -/
def nodeEvents (elements : List BeamElementRef) : List ℕ :=
  elements.flatMap fun el => [el.start_node, el.end_node]

/-- The traversal of `reindex_dof`: a running shift, the
`handled_nodes` set (as a list of node indices) and the node registry
(the shared heap of node objects, keyed by node index).  An already
handled node is skipped; otherwise the node is reindexed and written
back. -/
def reindexEvents : List ℕ → ℕ → List ℕ → (ℕ → Node) → (ℕ → Node)
  | [], _, _, registry => registry
  | e :: rest, shift, handled, registry =>
    if (registry e).index ∈ handled then
      reindexEvents rest shift handled registry
    else
      let r := reindexNode shift (registry e)
      reindexEvents rest r.1 ((registry e).index :: handled)
        fun j => if j = e then r.2 else registry j

/-- Embedding of `reindex_dof` (`assembly.py`): traverse all node visit
events with shift `0` and an empty handled set, mutating the registry. -/
def reindex_dof (elements : List BeamElementRef) (registry : ℕ → Node) :
    ℕ → Node :=
  reindexEvents (nodeEvents elements) 0 [] registry

/-- Decides that the first encounters of node indices in the event list,
starting after the already-handled block `0, …, k − 1`, are exactly
`k, k + 1, …, m − 1` in increasing order. -/
def goodEncounter (m : ℕ) : ℕ → List ℕ → Bool
  | k, [] => k == m
  | k, e :: rest =>
    if e < k then goodEncounter m k rest
    else e == k && goodEncounter m (k + 1) rest

/-- Number of fixed DOFs of a node. -/
def fixedCount (nd : Node) : ℕ :=
  (if nd.fix_u then 1 else 0) + (if nd.fix_v then 1 else 0) +
    (if nd.fix_theta then 1 else 0)

/-- Number of free DOFs of a node. -/
def freeCount (nd : Node) : ℕ :=
  (if nd.fix_u then 0 else 1) + (if nd.fix_v then 0 else 1) +
    (if nd.fix_theta then 0 else 1)

/-- Total number of fixed DOFs among nodes `0, …, i − 1`. -/
def totalFixedBelow (registry : ℕ → Node) (i : ℕ) : ℕ :=
  ∑ j ∈ Finset.range i, fixedCount (registry j)

/-- The final form of node `i` after reindexing: it is processed with the
shift accumulated over all smaller node indices. -/
def finalNode (registry : ℕ → Node) (i : ℕ) : Node :=
  (reindexNode (totalFixedBelow registry i) (registry i)).2

/-- The registry after the nodes `0, …, k − 1` have been processed. -/
def partialRegistry (registry : ℕ → Node) (k : ℕ) : ℕ → Node :=
  fun j => if j < k then finalNode registry j else registry j

lemma reindexNode_index (s : ℕ) (nd : Node) :
    (reindexNode s nd).2.index = nd.index := rfl

lemma reindexNode_fst (s : ℕ) (nd : Node) :
    (reindexNode s nd).1 = s + fixedCount nd := by
  unfold reindexNode reindexSlot fixedCount
  cases nd.fix_u <;> cases nd.fix_v <;> cases nd.fix_theta <;> simp <;> omega

lemma finalNode_index (registry : ℕ → Node) (i : ℕ) :
    (finalNode registry i).index = (registry i).index := rfl

lemma partialRegistry_index (registry : ℕ → Node) (k j : ℕ) :
    (partialRegistry registry k j).index = (registry j).index := by
  unfold partialRegistry
  split <;> rfl

lemma reindexEvents_invariant (m : ℕ) (registry : ℕ → Node)
    (hindex : ∀ i, (registry i).index = i) :
    ∀ evts k hl, (∀ e : ℕ, e ∈ hl ↔ e < k) →
      goodEncounter m k evts = true →
      reindexEvents evts (totalFixedBelow registry k) hl
        (partialRegistry registry k) = partialRegistry registry m := by
  intro evts
  induction evts with
  | nil =>
    intro k hl _ hgood
    have hk : k = m := by
      have := hgood
      unfold goodEncounter at this
      exact eq_of_beq this
    subst hk
    rfl
  | cons e rest ih =>
    intro k hl hmem hgood
    have hidx : (partialRegistry registry k e).index = e := by
      rw [partialRegistry_index, hindex]
    unfold reindexEvents
    rw [hidx]
    unfold goodEncounter at hgood
    by_cases he : e < k
    · rw [if_pos ((hmem e).mpr he)]
      rw [if_pos he] at hgood
      exact ih k hl hmem hgood
    · rw [if_neg (fun hin => he ((hmem e).mp hin))]
      rw [if_neg he, Bool.and_eq_true, beq_iff_eq] at hgood
      obtain ⟨hek, hgood'⟩ := hgood
      subst hek
      have hpk : partialRegistry registry e e = registry e := by
        unfold partialRegistry
        rw [if_neg (lt_irrefl e)]
      rw [hpk]
      have hshift : (reindexNode (totalFixedBelow registry e) (registry e)).1 =
          totalFixedBelow registry (e + 1) := by
        rw [reindexNode_fst]
        unfold totalFixedBelow
        rw [Finset.sum_range_succ]
      have hreg : (fun j => if j = e then
          (reindexNode (totalFixedBelow registry e) (registry e)).2
          else partialRegistry registry e j) =
          partialRegistry registry (e + 1) := by
        funext j
        unfold partialRegistry
        by_cases hj : j = e
        · subst hj
          rw [if_pos rfl, if_pos (Nat.lt_succ_self j)]
          rfl
        · rw [if_neg hj]
          by_cases hjk : j < e
          · rw [if_pos hjk, if_pos (Nat.lt_succ_of_lt hjk)]
          · rw [if_neg hjk, if_neg (by omega)]
      have hmem' : ∀ x : ℕ, x ∈ e :: hl ↔ x < e + 1 := by
        intro x
        constructor
        · intro hx
          rcases List.mem_cons.mp hx with hx | hx
          · omega
          · have := (hmem x).mp hx
            omega
        · intro hx
          by_cases hxe : x = e
          · subst hxe
            exact List.mem_cons_self x hl
          · exact List.mem_cons_of_mem _ ((hmem x).mpr (by omega))
      show reindexEvents rest
          (reindexNode (totalFixedBelow registry e) (registry e)).1
          (e :: hl)
          (fun j => if j = e then
            (reindexNode (totalFixedBelow registry e) (registry e)).2
            else partialRegistry registry e j) =
        partialRegistry registry m
      rw [hshift, hreg]
      exact ih (e + 1) _ hmem' hgood'

/-- Number of free DOFs of a node among its slots strictly before slot
`k` (slot order `u`, `v`, `theta`). -/
def freeBeforeSlot (nd : Node) (k : Fin 3) : ℕ :=
  (if 1 ≤ (k : ℕ) then (if nd.fix_u then 0 else 1) else 0) +
    (if 2 ≤ (k : ℕ) then (if nd.fix_v then 0 else 1) else 0)

/-- The rank of the DOF in slot `k` of node `i` among all free DOFs taken
in increasing original order: the count of free DOFs strictly below it. -/
def freeRank (registry : ℕ → Node) (i : ℕ) (k : Fin 3) : ℕ :=
  (∑ j ∈ Finset.range i, freeCount (registry j)) +
    freeBeforeSlot (registry i) k

lemma fixed_add_free (nd : Node) : fixedCount nd + freeCount nd = 3 := by
  unfold fixedCount freeCount
  cases nd.fix_u <;> cases nd.fix_v <;> cases nd.fix_theta <;> simp

lemma total_split (registry : ℕ → Node) (i : ℕ) :
    totalFixedBelow registry i +
      (∑ j ∈ Finset.range i, freeCount (registry j)) = 3 * i := by
  unfold totalFixedBelow
  rw [← Finset.sum_add_distrib]
  have hc : ∀ j ∈ Finset.range i,
      fixedCount (registry j) + freeCount (registry j) = 3 :=
    fun j _ => fixed_add_free _
  rw [Finset.sum_congr rfl hc, Finset.sum_const, Finset.card_range,
    smul_eq_mul, Nat.mul_comm]

lemma finalNode_dofs (registry : ℕ → Node) (i : ℕ)
    (hdofs : (registry i).dofs =
      (some (3 * (i : ℤ)), some (3 * (i : ℤ) + 1), some (3 * (i : ℤ) + 2))) :
    (finalNode registry i).dofs =
      ( if (registry i).fix_u then none
        else some (3 * (i : ℤ) - (totalFixedBelow registry i : ℤ)),
        if (registry i).fix_v then none
        else some (3 * (i : ℤ) + 1 - (totalFixedBelow registry i : ℤ) -
          (if (registry i).fix_u then 1 else 0)),
        if (registry i).fix_theta then none
        else some (3 * (i : ℤ) + 2 - (totalFixedBelow registry i : ℤ) -
          (if (registry i).fix_u then 1 else 0) -
          (if (registry i).fix_v then 1 else 0)) ) := by
  unfold finalNode reindexNode reindexSlot
  cases hu : (registry i).fix_u <;> cases hv : (registry i).fix_v <;>
    cases ht : (registry i).fix_theta <;>
    simp [hdofs, hu, hv, ht] <;> push_cast <;> omega

/-- C2: for every element list whose node visits encounter the node
indices `0, …, m − 1` for the first time in increasing order (with the
node registry holding freshly constructed nodes), `reindex_dof` sets each
fixed DOF of every node to the `None` marker and renumbers each free DOF
to its rank among the free DOFs in original order — a contiguous
numbering from `0` preserving the original relative order. -/
theorem reindex_dof_renumbers (m : ℕ) (elements : List BeamElementRef)
    (registry : ℕ → Node)
    (hindex : ∀ i, (registry i).index = i)
    (hdofs : ∀ i, (registry i).dofs =
      (some (3 * (i : ℤ)), some (3 * (i : ℤ) + 1), some (3 * (i : ℤ) + 2)))
    (hgood : goodEncounter m 0 (nodeEvents elements) = true) :
    ∀ i, i < m →
      (reindex_dof elements registry i).dofs =
        ( if (registry i).fix_u then none
          else some ((freeRank registry i 0 : ℤ)),
          if (registry i).fix_v then none
          else some ((freeRank registry i 1 : ℤ)),
          if (registry i).fix_theta then none
          else some ((freeRank registry i 2 : ℤ)) ) := by
  intro i him
  have h0 : partialRegistry registry 0 = registry := by
    funext j
    unfold partialRegistry
    rw [if_neg (Nat.not_lt_zero j)]
  have hmem0 : ∀ e : ℕ, e ∈ ([] : List ℕ) ↔ e < 0 := by
    intro e
    simp
  have hinv := reindexEvents_invariant m registry hindex (nodeEvents elements)
    0 [] hmem0 hgood
  rw [h0, show totalFixedBelow registry 0 = 0 from by
    unfold totalFixedBelow
    exact Finset.sum_range_zero _] at hinv
  have hrun : reindex_dof elements registry i = partialRegistry registry m i := by
    unfold reindex_dof
    rw [hinv]
  rw [hrun]
  show (partialRegistry registry m i).dofs = _
  unfold partialRegistry
  rw [if_pos him, finalNode_dofs registry i (hdofs i)]
  have hsplit := total_split registry i
  zify at hsplit
  push_cast at hsplit
  cases hu : (registry i).fix_u <;> cases hv : (registry i).fix_v <;>
    cases ht : (registry i).fix_theta <;>
    simp [hu, hv, ht, freeRank, freeBeforeSlot, Prod.ext_iff] <;> omega

/-- The two-element, three-node chain of the C2 example: elements
`(node 0, node 1)` and `(node 1, node 2)`. -/
def chainElements : List BeamElementRef := [⟨0, 1⟩, ⟨1, 2⟩]

/-- Registry for the C2 example: freshly constructed nodes, node `0`
fully fixed, all other nodes free. -/
def chainRegistry : ℕ → Node := fun i =>
  Node.initial i (i == 0) (i == 0) (i == 0)

/-- Witness for C2: on the three-node chain with node 0 fully fixed the
reindexed global DOF list is `(None, None, None, 0, 1, 2, 3, 4, 5)`. -/
theorem reindex_dof_renumbers_witness :
    (reindex_dof chainElements chainRegistry 0).dofs =
      (none, none, none) ∧
    (reindex_dof chainElements chainRegistry 1).dofs =
      (some 0, some 1, some 2) ∧
    (reindex_dof chainElements chainRegistry 2).dofs =
      (some 3, some 4, some 5) := by
  have h := reindex_dof_renumbers 3 chainElements chainRegistry
    (fun i => rfl) (fun i => rfl) (by decide)
  exact ⟨(h 0 (by norm_num)).trans (by decide),
    (h 1 (by norm_num)).trans (by decide),
    (h 2 (by norm_num)).trans (by decide)⟩

/-! ## Quadratic forms of the element matrices (toward C5) -/

/-- Sum-of-squares form of the local stiffness quadratic form: axial
stretch plus the two bending modes. -/
lemma stiffness_quadform (E A L I : ℚ) (hL : L ≠ 0) (x : Fin 6 → ℚ) :
    x ⬝ᵥ (create_stiffness_matrix E A L I *ᵥ x) =
      E * A / L * (x 0 - x 3) ^ 2 +
        E * I / L ^ 3 *
          (12 * (x 1 - x 4 + L / 2 * (x 2 + x 5)) ^ 2 +
            L ^ 2 * (x 2 - x 5) ^ 2) := by
  simp only [create_stiffness_matrix, Matrix.dotProduct, Matrix.mulVec,
    Fin.sum_univ_six, Matrix.of_apply, vec6_zero, vec6_one, vec6_two,
    vec6_three, vec6_four, vec6_five]
  field_simp
  ring

/-- The local stiffness quadratic form is nonnegative for positive
element scalars. -/
lemma stiffness_quadform_nonneg (E A L I : ℚ) (hE : 0 < E) (hA : 0 < A)
    (hL : 0 < L) (hI : 0 < I) (x : Fin 6 → ℚ) :
    0 ≤ x ⬝ᵥ (create_stiffness_matrix E A L I *ᵥ x) := by
  rw [stiffness_quadform E A L I (ne_of_gt hL) x]
  positivity

/-- Sum-of-squares (LDLᵀ) form of the consistent mass quadratic form. -/
lemma mass_quadform (rho A L : ℚ) (x : Fin 6 → ℚ) :
    x ⬝ᵥ (create_mass_matrix rho A L *ᵥ x) =
      rho * A * L / 420 *
        (140 * (x 0 + x 3 / 2) ^ 2 + 105 * x 3 ^ 2 +
          156 * (x 1 + 11 / 78 * (L * x 2) + 9 / 26 * x 4 -
            1 / 12 * (L * x 5)) ^ 2 +
          35 / 39 * (L * x 2 + 6 * x 4 - 13 / 10 * (L * x 5)) ^ 2 +
          105 * (x 4 - 1 / 10 * (L * x 5)) ^ 2 +
          7 / 20 * (L * x 5) ^ 2) := by
  simp only [create_mass_matrix, Matrix.smul_apply, Matrix.dotProduct,
    Matrix.mulVec, Fin.sum_univ_six, Matrix.of_apply, vec6_zero, vec6_one,
    vec6_two, vec6_three, vec6_four, vec6_five, smul_eq_mul]
  ring

/-- The consistent mass quadratic form is nonnegative for nonnegative
density, area and length. -/
lemma mass_quadform_nonneg (rho A L : ℚ) (hrho : 0 ≤ rho) (hA : 0 ≤ A)
    (hL : 0 ≤ L) (x : Fin 6 → ℚ) :
    0 ≤ x ⬝ᵥ (create_mass_matrix rho A L *ᵥ x) := by
  rw [mass_quadform rho A L x]
  positivity

/-- If the mass sum-of-squares vanishes and `L ≠ 0`, the argument vector
vanishes (the six squares force each coordinate to zero in turn). -/
lemma mass_sos_eq_zero (L : ℚ) (hL : L ≠ 0) (x : Fin 6 → ℚ)
    (h : 140 * (x 0 + x 3 / 2) ^ 2 + 105 * x 3 ^ 2 +
        156 * (x 1 + 11 / 78 * (L * x 2) + 9 / 26 * x 4 -
          1 / 12 * (L * x 5)) ^ 2 +
        35 / 39 * (L * x 2 + 6 * x 4 - 13 / 10 * (L * x 5)) ^ 2 +
        105 * (x 4 - 1 / 10 * (L * x 5)) ^ 2 +
        7 / 20 * (L * x 5) ^ 2 = 0) : x = 0 := by
  have s1 := sq_nonneg (x 0 + x 3 / 2)
  have s2 := sq_nonneg (x 3)
  have s3 := sq_nonneg (x 1 + 11 / 78 * (L * x 2) + 9 / 26 * x 4 -
    1 / 12 * (L * x 5))
  have s4 := sq_nonneg (L * x 2 + 6 * x 4 - 13 / 10 * (L * x 5))
  have s5 := sq_nonneg (x 4 - 1 / 10 * (L * x 5))
  have s6 := sq_nonneg (L * x 5)
  have h6 : (L * x 5) ^ 2 = 0 := by linarith
  have h5 : (x 4 - 1 / 10 * (L * x 5)) ^ 2 = 0 := by linarith
  have h4 : (L * x 2 + 6 * x 4 - 13 / 10 * (L * x 5)) ^ 2 = 0 := by linarith
  have h3 : (x 1 + 11 / 78 * (L * x 2) + 9 / 26 * x 4 -
      1 / 12 * (L * x 5)) ^ 2 = 0 := by linarith
  have h2 : (x 3) ^ 2 = 0 := by linarith
  have h1 : (x 0 + x 3 / 2) ^ 2 = 0 := by linarith
  have e6 : L * x 5 = 0 := pow_eq_zero_iff (by norm_num) |>.mp h6
  have x5 : x 5 = 0 := by
    rcases mul_eq_zero.mp e6 with hc | hc
    · exact absurd hc hL
    · exact hc
  have e5 : x 4 - 1 / 10 * (L * x 5) = 0 :=
    pow_eq_zero_iff (by norm_num) |>.mp h5
  have x4 : x 4 = 0 := by rw [e6] at e5; linarith
  have e4 : L * x 2 + 6 * x 4 - 13 / 10 * (L * x 5) = 0 :=
    pow_eq_zero_iff (by norm_num) |>.mp h4
  have x2 : x 2 = 0 := by
    rw [e6, x4] at e4
    have : L * x 2 = 0 := by linarith
    rcases mul_eq_zero.mp this with hc | hc
    · exact absurd hc hL
    · exact hc
  have e3 : x 1 + 11 / 78 * (L * x 2) + 9 / 26 * x 4 - 1 / 12 * (L * x 5) = 0 :=
    pow_eq_zero_iff (by norm_num) |>.mp h3
  have x1 : x 1 = 0 := by rw [e6, x4] at e3; rw [x2] at e3; linarith
  have x3 : x 3 = 0 := pow_eq_zero_iff (by norm_num) |>.mp h2
  have e1 : x 0 + x 3 / 2 = 0 := pow_eq_zero_iff (by norm_num) |>.mp h1
  have x0 : x 0 = 0 := by rw [x3] at e1; linarith
  funext i
  fin_cases i <;> simp [x0, x1, x2, x3, x4, x5]

/-- The consistent mass quadratic form is positive definite for positive
density, area and length. -/
lemma mass_quadform_pos (rho A L : ℚ) (hrho : 0 < rho) (hA : 0 < A)
    (hL : 0 < L) (x : Fin 6 → ℚ) (hx : x ≠ 0) :
    0 < x ⬝ᵥ (create_mass_matrix rho A L *ᵥ x) := by
  rw [mass_quadform rho A L x]
  set T := 140 * (x 0 + x 3 / 2) ^ 2 + 105 * x 3 ^ 2 +
    156 * (x 1 + 11 / 78 * (L * x 2) + 9 / 26 * x 4 - 1 / 12 * (L * x 5)) ^ 2 +
    35 / 39 * (L * x 2 + 6 * x 4 - 13 / 10 * (L * x 5)) ^ 2 +
    105 * (x 4 - 1 / 10 * (L * x 5)) ^ 2 + 7 / 20 * (L * x 5) ^ 2 with hT
  have hT0 : 0 ≤ T := by rw [hT]; positivity
  have hTne : T ≠ 0 := by
    intro hz
    exact hx (mass_sos_eq_zero L (ne_of_gt hL) x (by rw [← hT]; exact hz))
  have : 0 < T := lt_of_le_of_ne hT0 (Ne.symm hTne)
  positivity

/-- Orthogonality of the rational rotation matrix, given the Pythagorean
identity for the carried cosine/sine pair. -/
lemma create_rotation_matrix_q_orthogonal (c s : ℚ)
    (h : c ^ 2 + s ^ 2 = 1) :
    (create_rotation_matrix_q c s)ᵀ * create_rotation_matrix_q c s = 1 := by
  ext i j
  rw [Matrix.mul_apply, Fin.sum_univ_six]
  fin_cases i <;> fin_cases j <;>
    simp only [create_rotation_matrix_q, Matrix.transpose_apply,
      Matrix.of_apply, Matrix.one_apply, vec6_zero, vec6_one, vec6_two,
      vec6_three, vec6_four, vec6_five] <;>
    norm_num [Fin.ext_iff] <;> nlinarith [h]

/-- A vector annihilated by the rotation matrix is zero. -/
lemma create_rotation_matrix_q_mulVec_ne_zero (c s : ℚ)
    (h : c ^ 2 + s ^ 2 = 1) (g : Fin 6 → ℚ)
    (hg : create_rotation_matrix_q c s *ᵥ g = 0) : g = 0 := by
  have horth := create_rotation_matrix_q_orthogonal c s h
  have : (create_rotation_matrix_q c s)ᵀ *ᵥ
      (create_rotation_matrix_q c s *ᵥ g) = g := by
    rw [Matrix.mulVec_mulVec, horth, Matrix.one_mulVec]
  rw [hg, Matrix.mulVec_zero] at this
  exact this.symm

/-- The quadratic form of a rotated matrix `Rᵀ·B·R` is the quadratic form
of `B` at the rotated vector. -/
lemma rotated_quadform (R B : Matrix (Fin 6) (Fin 6) ℚ) (g : Fin 6 → ℚ) :
    g ⬝ᵥ ((Rᵀ * B * R) *ᵥ g) = (R *ᵥ g) ⬝ᵥ (B *ᵥ (R *ᵥ g)) := by
  rw [← Matrix.mulVec_mulVec, ← Matrix.mulVec_mulVec,
    Matrix.dotProduct_mulVec, Matrix.vecMul_transpose]

/-! ## Reduced system matrices (`assembly.py`, toward C5) -/

/-- The set of distinct global DOF identifiers referenced by any element's
two nodes: `set(chain(*[(start.dofs, end.dofs) ...]))`. -/
def dofFinset (elements : List ElemQ) : Finset ℕ :=
  (elements.map fun e => Finset.image (dof_element e) Finset.univ).foldr
    (· ∪ ·) ∅

/-- Embedding of `n_dof` in `assemble_system_matrices`: the number of
distinct referenced DOFs. -/
def n_dof (elements : List ElemQ) : ℕ := (dofFinset elements).card

/-- The fixed DOFs contributed by one node:
`itertools.compress(node.dofs, (fix_u, fix_v, fix_theta))`. -/
def fixedFromNode (dofs : Fin 3 → ℕ) (fix : Fin 3 → Bool) : Finset ℕ :=
  Finset.image dofs (Finset.univ.filter fun i => fix i)

/-- Embedding of `_get_fixed_dofs` (`assembly.py`): the set of DOFs flagged
fixed by any node of any element. -/
def fixedDofs (elements : List ElemQ) : Finset ℕ :=
  (elements.map fun e =>
    fixedFromNode e.start_dofs e.start_fix ∪
      fixedFromNode e.end_dofs e.end_fix).foldr (· ∪ ·) ∅

/-- The global row/column indices kept by
`np.delete(np.delete(matrix, fixed, 0), fixed, 1)`: the indices below `n`
not in `fixed`, in increasing order (`np.delete` preserves order). -/
def keepList (n : ℕ) (fixed : Finset ℕ) : List ℕ :=
  ((Finset.range n) \ fixed).sort (· ≤ ·)

/-- Embedding of `apply_boundary_conditions` (`assembly.py`): the square
submatrix of the global matrix on the kept indices. -/
def apply_boundary_conditions (K : ℕ → ℕ → ℚ) (n : ℕ) (fixed : Finset ℕ) :
    Matrix (Fin (keepList n fixed).length) (Fin (keepList n fixed).length)
      ℚ :=
  Matrix.of fun i j => K ((keepList n fixed).get i) ((keepList n fixed).get j)

/-- Embedding of `assemble_system_matrices` (`assembly.py`): assemble the
global stiffness and mass matrices by scatter-add, then delete the rows
and columns of the fixed DOFs from both. -/
def assemble_system_matrices (elements : List ElemQ) :
    Matrix (Fin (keepList (n_dof elements) (fixedDofs elements)).length)
        (Fin (keepList (n_dof elements) (fixedDofs elements)).length) ℚ ×
      Matrix (Fin (keepList (n_dof elements) (fixedDofs elements)).length)
        (Fin (keepList (n_dof elements) (fixedDofs elements)).length) ℚ :=
  (apply_boundary_conditions (assemble_global elements).1 (n_dof elements)
      (fixedDofs elements),
    apply_boundary_conditions (assemble_global elements).2 (n_dof elements)
      (fixedDofs elements))

lemma mem_dofFinset (elements : List ElemQ) (d : ℕ) :
    d ∈ dofFinset elements ↔
      ∃ e ∈ elements, ∃ i, dof_element e i = d := by
  unfold dofFinset
  induction elements with
  | nil => simp
  | cons e es ih =>
    simp only [List.map_cons, List.foldr_cons, Finset.mem_union, ih,
      Finset.mem_image, Finset.mem_univ, true_and, List.mem_cons]
    constructor
    · rintro (⟨i, hi⟩ | ⟨a, ha, hi⟩)
      · exact ⟨e, Or.inl rfl, i, hi⟩
      · exact ⟨a, Or.inr ha, hi⟩
    · rintro ⟨a, ha | ha, hi⟩
      · subst ha
        exact Or.inl hi
      · exact Or.inr ⟨a, ha, hi⟩

lemma dof_element_start (e : ElemQ) (i : Fin 3) :
    dof_element e ⟨(i : ℕ), by omega⟩ = e.start_dofs i := by
  have h3 : ((⟨(i : ℕ), by omega⟩ : Fin 6) : ℕ) < 3 := i.isLt
  simp only [dof_element, dif_pos h3]

lemma dof_element_end (e : ElemQ) (i : Fin 3) :
    dof_element e ⟨(i : ℕ) + 3, by omega⟩ = e.end_dofs i := by
  have h3 : ¬ ((⟨(i : ℕ) + 3, by omega⟩ : Fin 6) : ℕ) < 3 := by
    simp
  simp only [dof_element, dif_neg h3]
  exact congrArg e.end_dofs (Fin.ext (by simp))

lemma mem_fixedDofs (elements : List ElemQ) (d : ℕ) :
    d ∈ fixedDofs elements ↔
      ∃ e ∈ elements,
        d ∈ fixedFromNode e.start_dofs e.start_fix ∨
          d ∈ fixedFromNode e.end_dofs e.end_fix := by
  unfold fixedDofs
  induction elements with
  | nil => simp
  | cons e es ih =>
    simp only [List.map_cons, List.foldr_cons, Finset.mem_union, ih,
      List.mem_cons]
    constructor
    · rintro ((h | h) | ⟨a, ha, h⟩)
      · exact ⟨e, Or.inl rfl, Or.inl h⟩
      · exact ⟨e, Or.inl rfl, Or.inr h⟩
      · exact ⟨a, Or.inr ha, h⟩
    · rintro ⟨a, ha | ha, h⟩
      · subst ha
        exact Or.inl h
      · exact Or.inr ⟨a, ha, h⟩

lemma fixedDofs_subset_dofFinset (elements : List ElemQ) :
    fixedDofs elements ⊆ dofFinset elements := by
  intro d hd
  rw [mem_fixedDofs] at hd
  obtain ⟨e, he, hcase⟩ := hd
  rw [mem_dofFinset]
  rcases hcase with h | h
  · unfold fixedFromNode at h
    rw [Finset.mem_image] at h
    obtain ⟨i, -, hi⟩ := h
    exact ⟨e, he, ⟨(i : ℕ), by omega⟩, by rw [dof_element_start]; exact hi⟩
  · unfold fixedFromNode at h
    rw [Finset.mem_image] at h
    obtain ⟨i, -, hi⟩ := h
    exact ⟨e, he, ⟨(i : ℕ) + 3, by omega⟩, by rw [dof_element_end]; exact hi⟩

lemma dofFinset_eq_range (elements : List ElemQ)
    (hlt : ∀ e ∈ elements, ∀ i, dof_element e i < n_dof elements) :
    dofFinset elements = Finset.range (n_dof elements) := by
  have hsub : dofFinset elements ⊆ Finset.range (n_dof elements) := by
    intro d hd
    rw [mem_dofFinset] at hd
    obtain ⟨e, he, i, hi⟩ := hd
    rw [Finset.mem_range, ← hi]
    exact hlt e he i
  have hcard : (Finset.range (n_dof elements)).card ≤
      (dofFinset elements).card := by
    rw [Finset.card_range]
    exact le_of_eq rfl
  exact Finset.eq_of_subset_of_card_le hsub hcard

/-- The length of the kept-index list is `n − |fixed|` whenever all fixed
DOFs lie below `n`. -/
lemma keepList_length (n : ℕ) (fixed : Finset ℕ)
    (hsub : fixed ⊆ Finset.range n) :
    (keepList n fixed).length = n - fixed.card := by
  unfold keepList
  rw [Finset.length_sort, Finset.card_sdiff hsub, Finset.card_range]

lemma keepList_nodup (n : ℕ) (fixed : Finset ℕ) :
    (keepList n fixed).Nodup := by
  unfold keepList
  exact Finset.sort_nodup _ _

lemma keepList_mem (n : ℕ) (fixed : Finset ℕ) (d : ℕ) :
    d ∈ keepList n fixed ↔ d < n ∧ d ∉ fixed := by
  unfold keepList
  rw [Finset.mem_sort, Finset.mem_sdiff, Finset.mem_range]

lemma lastIdx_eq_some (dofs : Fin 6 → ℕ) (r : ℕ) (i : Fin 6)
    (h : lastIdx dofs r = some i) : dofs i = r := by
  have hp := List.find?_some h
  exact eq_of_beq hp

lemma lastIdx_dofs_self (dofs : Fin 6 → ℕ) (hinj : Function.Injective dofs)
    (i : Fin 6) : lastIdx dofs (dofs i) = some i := by
  cases hfind : lastIdx dofs (dofs i) with
  | none =>
    exfalso
    have hmem : i ∈ (List.finRange 6).reverse := by
      simp [List.mem_reverse, List.mem_finRange]
    have hnone := List.find?_eq_none.mp hfind i hmem
    simp at hnone
  | some j =>
    have hj : dofs j = dofs i := lastIdx_eq_some dofs (dofs i) j hfind
    rw [hinj hj]

lemma lastIdx_eq_none_of (dofs : Fin 6 → ℕ) (r : ℕ)
    (h : ∀ i, dofs i ≠ r) : lastIdx dofs r = none := by
  apply List.find?_eq_none.mpr
  intro i _
  simp [h i]

lemma element_contribution_none_left (B : Matrix (Fin 6) (Fin 6) ℚ)
    (dofs : Fin 6 → ℕ) (r c : ℕ) (h : lastIdx dofs r = none) :
    element_contribution B dofs r c = 0 := by
  unfold element_contribution
  rw [h]

lemma element_contribution_none_right (B : Matrix (Fin 6) (Fin 6) ℚ)
    (dofs : Fin 6 → ℕ) (r c : ℕ) (h : lastIdx dofs c = none) :
    element_contribution B dofs r c = 0 := by
  unfold element_contribution
  rw [h]
  cases lastIdx dofs r <;> rfl

lemma element_contribution_dofs (B : Matrix (Fin 6) (Fin 6) ℚ)
    (dofs : Fin 6 → ℕ) (hinj : Function.Injective dofs) (i j : Fin 6) :
    element_contribution B dofs (dofs i) (dofs j) = B i j := by
  unfold element_contribution
  rw [lastIdx_dofs_self dofs hinj i, lastIdx_dofs_self dofs hinj j]

/-- A sum over all global indices of a function supported on an element's
DOF image equals the sum over the element's six local positions. -/
lemma sum_range_contribution (g : ℕ → ℚ) (dofs : Fin 6 → ℕ)
    (hinj : Function.Injective dofs) (n : ℕ) (hlt : ∀ i, dofs i < n)
    (hzero : ∀ r, lastIdx dofs r = none → g r = 0) :
    ∑ r ∈ Finset.range n, g r = ∑ i : Fin 6, g (dofs i) := by
  have himg : Finset.image dofs Finset.univ ⊆ Finset.range n := by
    intro d hd
    rw [Finset.mem_image] at hd
    obtain ⟨i, -, hi⟩ := hd
    rw [Finset.mem_range, ← hi]
    exact hlt i
  have hz : ∀ d ∈ Finset.range n, d ∉ Finset.image dofs Finset.univ →
      g d = 0 := by
    intro d _ hnot
    apply hzero
    apply lastIdx_eq_none_of
    intro i hi
    exact hnot (Finset.mem_image.mpr ⟨i, Finset.mem_univ i, hi⟩)
  rw [← Finset.sum_subset himg hz]
  exact Finset.sum_image fun i _ j _ h => hinj h

/-- Double sum over global indices of the quadratic form weighted by one
element's contribution equals the quadratic form of the element matrix at
the gathered vector. -/
lemma element_quadform (B : Matrix (Fin 6) (Fin 6) ℚ) (dofs : Fin 6 → ℕ)
    (hinj : Function.Injective dofs) (n : ℕ) (hlt : ∀ i, dofs i < n)
    (x : ℕ → ℚ) :
    ∑ r ∈ Finset.range n, ∑ c ∈ Finset.range n,
        x r * element_contribution B dofs r c * x c =
      (fun i => x (dofs i)) ⬝ᵥ (B *ᵥ fun i => x (dofs i)) := by
  rw [sum_range_contribution
    (fun r => ∑ c ∈ Finset.range n, x r * element_contribution B dofs r c * x c)
    dofs hinj n hlt (fun r hr => by
      show ∑ c ∈ Finset.range n,
          x r * element_contribution B dofs r c * x c = 0
      apply Finset.sum_eq_zero
      intro c _
      rw [element_contribution_none_left B dofs r c hr]
      ring)]
  have hinner : ∀ i : Fin 6,
      ∑ c ∈ Finset.range n,
          x (dofs i) * element_contribution B dofs (dofs i) c * x c =
        ∑ j : Fin 6, x (dofs i) * B i j * x (dofs j) := by
    intro i
    rw [sum_range_contribution
      (fun c => x (dofs i) * element_contribution B dofs (dofs i) c * x c)
      dofs hinj n hlt (fun c hc => by
        show x (dofs i) * element_contribution B dofs (dofs i) c * x c = 0
        rw [element_contribution_none_right B dofs (dofs i) c hc]
        ring)]
    apply Finset.sum_congr rfl
    intro j _
    rw [element_contribution_dofs B dofs hinj i j]
  rw [Finset.sum_congr rfl fun i _ => hinner i]
  simp only [Matrix.dotProduct, Matrix.mulVec, Finset.mul_sum]
  apply Finset.sum_congr rfl
  intro i _
  apply Finset.sum_congr rfl
  intro j _
  ring

lemma finset_sum_list_sum {β : Type} (s : Finset β) (l : List ElemQ)
    (f : β → ElemQ → ℚ) :
    ∑ b ∈ s, (l.map fun e => f b e).sum =
      (l.map fun e => ∑ b ∈ s, f b e).sum := by
  induction l with
  | nil => simp
  | cons e es ih =>
    simp only [List.map_cons, List.sum_cons, Finset.sum_add_distrib, ih]

lemma mul_list_sum_mul (a b : ℚ) (l : List ElemQ) (g : ElemQ → ℚ) :
    a * (l.map g).sum * b = (l.map fun e => a * g e * b).sum := by
  induction l with
  | nil => simp
  | cons e es ih =>
    simp only [List.map_cons, List.sum_cons, ← ih]
    ring

/-- The quadratic form of either assembled global matrix is the sum over
elements of the rotated element quadratic forms at the gathered vectors. -/
lemma global_quadform (elements : List ElemQ) (n : ℕ)
    (hinj : ∀ e ∈ elements, Function.Injective (dof_element e))
    (hlt : ∀ e ∈ elements, ∀ i, dof_element e i < n) (x : ℕ → ℚ) :
    (∑ r ∈ Finset.range n, ∑ c ∈ Finset.range n,
        x r * (assemble_global elements).1 r c * x c =
      (elements.map fun e =>
        (fun i => x (dof_element e i)) ⬝ᵥ
          (rotated_stiffness e *ᵥ fun i => x (dof_element e i))).sum) ∧
    (∑ r ∈ Finset.range n, ∑ c ∈ Finset.range n,
        x r * (assemble_global elements).2 r c * x c =
      (elements.map fun e =>
        (fun i => x (dof_element e i)) ⬝ᵥ
          (rotated_mass e *ᵥ fun i => x (dof_element e i))).sum) := by
  constructor
  · have h1 : ∀ r c, x r * (assemble_global elements).1 r c * x c =
        (elements.map fun e =>
          x r * element_contribution (rotated_stiffness e) (dof_element e)
            r c * x c).sum := by
      intro r c
      rw [(assemble_global_apply elements r c).1, mul_list_sum_mul]
    calc ∑ r ∈ Finset.range n, ∑ c ∈ Finset.range n,
        x r * (assemble_global elements).1 r c * x c
        = ∑ r ∈ Finset.range n, (elements.map fun e =>
            ∑ c ∈ Finset.range n,
              x r * element_contribution (rotated_stiffness e)
                (dof_element e) r c * x c).sum := by
          apply Finset.sum_congr rfl
          intro r _
          rw [Finset.sum_congr rfl fun c _ => h1 r c, finset_sum_list_sum]
      _ = (elements.map fun e => ∑ r ∈ Finset.range n,
            ∑ c ∈ Finset.range n,
              x r * element_contribution (rotated_stiffness e)
                (dof_element e) r c * x c).sum := by
          rw [finset_sum_list_sum]
      _ = (elements.map fun e =>
            (fun i => x (dof_element e i)) ⬝ᵥ
              (rotated_stiffness e *ᵥ fun i => x (dof_element e i))).sum := by
          apply congrArg List.sum
          apply List.map_congr_left
          intro e he
          exact element_quadform (rotated_stiffness e) (dof_element e)
            (hinj e he) n (hlt e he) x
  · have h1 : ∀ r c, x r * (assemble_global elements).2 r c * x c =
        (elements.map fun e =>
          x r * element_contribution (rotated_mass e) (dof_element e)
            r c * x c).sum := by
      intro r c
      rw [(assemble_global_apply elements r c).2, mul_list_sum_mul]
    calc ∑ r ∈ Finset.range n, ∑ c ∈ Finset.range n,
        x r * (assemble_global elements).2 r c * x c
        = ∑ r ∈ Finset.range n, (elements.map fun e =>
            ∑ c ∈ Finset.range n,
              x r * element_contribution (rotated_mass e)
                (dof_element e) r c * x c).sum := by
          apply Finset.sum_congr rfl
          intro r _
          rw [Finset.sum_congr rfl fun c _ => h1 r c, finset_sum_list_sum]
      _ = (elements.map fun e => ∑ r ∈ Finset.range n,
            ∑ c ∈ Finset.range n,
              x r * element_contribution (rotated_mass e)
                (dof_element e) r c * x c).sum := by
          rw [finset_sum_list_sum]
      _ = (elements.map fun e =>
            (fun i => x (dof_element e i)) ⬝ᵥ
              (rotated_mass e *ᵥ fun i => x (dof_element e i))).sum := by
          apply congrArg List.sum
          apply List.map_congr_left
          intro e he
          exact element_quadform (rotated_mass e) (dof_element e)
            (hinj e he) n (hlt e he) x

lemma create_stiffness_matrix_symm (E A L I : ℚ) :
    (create_stiffness_matrix E A L I)ᵀ = create_stiffness_matrix E A L I := by
  ext i j
  fin_cases i <;> fin_cases j <;> rfl

lemma create_mass_matrix_symm (rho A L : ℚ) :
    (create_mass_matrix rho A L)ᵀ = create_mass_matrix rho A L := by
  ext i j
  fin_cases i <;> fin_cases j <;> rfl

lemma rotated_symm (R B : Matrix (Fin 6) (Fin 6) ℚ) (hB : Bᵀ = B) :
    (Rᵀ * B * R)ᵀ = Rᵀ * B * R := by
  rw [Matrix.transpose_mul, Matrix.transpose_mul, Matrix.transpose_transpose,
    hB, Matrix.mul_assoc]

lemma rotated_stiffness_symm (e : ElemQ) :
    (rotated_stiffness e)ᵀ = rotated_stiffness e :=
  rotated_symm _ _ (create_stiffness_matrix_symm _ _ _ _)

lemma rotated_mass_symm (e : ElemQ) :
    (rotated_mass e)ᵀ = rotated_mass e :=
  rotated_symm _ _ (create_mass_matrix_symm _ _ _)

lemma element_contribution_symm (B : Matrix (Fin 6) (Fin 6) ℚ)
    (dofs : Fin 6 → ℕ) (r c : ℕ) (hB : Bᵀ = B) :
    element_contribution B dofs r c = element_contribution B dofs c r := by
  have hsym : ∀ i j, B i j = B j i := by
    intro i j
    conv_lhs => rw [← hB]
    rw [Matrix.transpose_apply]
  unfold element_contribution
  cases h1 : lastIdx dofs r <;> cases h2 : lastIdx dofs c <;> simp
  exact hsym _ _

lemma assemble_global_symm (elements : List ElemQ) (r c : ℕ) :
    (assemble_global elements).1 r c = (assemble_global elements).1 c r ∧
    (assemble_global elements).2 r c = (assemble_global elements).2 c r := by
  constructor
  · rw [(assemble_global_apply elements r c).1,
      (assemble_global_apply elements c r).1]
    apply congrArg List.sum
    apply List.map_congr_left
    intro e _
    exact element_contribution_symm _ _ r c (rotated_stiffness_symm e)
  · rw [(assemble_global_apply elements r c).2,
      (assemble_global_apply elements c r).2]
    apply congrArg List.sum
    apply List.map_congr_left
    intro e _
    exact element_contribution_symm _ _ r c (rotated_mass_symm e)

/-- The natural extension of a reduced vector to the global index space:
value `x i` at the kept index `kl.get i`, zero elsewhere. -/
def extendVec (kl : List ℕ) (x : Fin kl.length → ℚ) : ℕ → ℚ := fun d =>
  ∑ i : Fin kl.length, if kl.get i = d then x i else 0

lemma extendVec_get (kl : List ℕ) (hnd : kl.Nodup)
    (x : Fin kl.length → ℚ) (i : Fin kl.length) :
    extendVec kl x (kl.get i) = x i := by
  unfold extendVec
  rw [Finset.sum_eq_single i]
  · rw [if_pos rfl]
  · intro j _ hj
    rw [if_neg]
    intro hgj
    exact hj ((List.nodup_iff_injective_get.mp hnd) hgj)
  · intro hni
    exact absurd (Finset.mem_univ i) hni

lemma extend_mul_sum (n : ℕ) (kl : List ℕ) (hlt : ∀ d ∈ kl, d < n)
    (hnd : kl.Nodup) (x : Fin kl.length → ℚ) (g : ℕ → ℚ) :
    ∑ r ∈ Finset.range n, extendVec kl x r * g r =
      ∑ i : Fin kl.length, x i * g (kl.get i) := by
  have hstep : ∀ r, extendVec kl x r * g r =
      ∑ i : Fin kl.length, if kl.get i = r then x i * g r else 0 := by
    intro r
    unfold extendVec
    rw [Finset.sum_mul]
    apply Finset.sum_congr rfl
    intro i _
    rw [ite_mul, zero_mul]
  rw [Finset.sum_congr rfl fun r _ => hstep r, Finset.sum_comm]
  apply Finset.sum_congr rfl
  intro i _
  rw [Finset.sum_ite_eq (Finset.range n) (kl.get i) fun r => x i * g r,
    if_pos (Finset.mem_range.mpr (hlt _ (kl.get_mem i.1 i.2)))]

/-- The quadratic form of a reduced matrix is the global quadratic form at
the extended vector. -/
lemma reduced_quadform (K : ℕ → ℕ → ℚ) (n : ℕ) (fixed : Finset ℕ)
    (x : Fin (keepList n fixed).length → ℚ) :
    x ⬝ᵥ (apply_boundary_conditions K n fixed *ᵥ x) =
      ∑ r ∈ Finset.range n, ∑ c ∈ Finset.range n,
        extendVec (keepList n fixed) x r * K r c *
          extendVec (keepList n fixed) x c := by
  have hlt : ∀ d ∈ keepList n fixed, d < n := by
    intro d hd
    exact ((keepList_mem n fixed d).mp hd).1
  have hnd := keepList_nodup n fixed
  have houter : ∀ r,
      ∑ c ∈ Finset.range n,
          extendVec (keepList n fixed) x r * K r c *
            extendVec (keepList n fixed) x c =
        extendVec (keepList n fixed) x r *
          ∑ c ∈ Finset.range n,
            extendVec (keepList n fixed) x c * K r c := by
    intro r
    rw [Finset.mul_sum]
    apply Finset.sum_congr rfl
    intro c _
    ring
  rw [Finset.sum_congr rfl fun r _ => houter r,
    extend_mul_sum n (keepList n fixed) hlt hnd x]
  have hinner : ∀ i : Fin (keepList n fixed).length,
      x i * ∑ c ∈ Finset.range n,
          extendVec (keepList n fixed) x c *
            K ((keepList n fixed).get i) c =
        x i * ∑ j : Fin (keepList n fixed).length,
          x j * K ((keepList n fixed).get i) ((keepList n fixed).get j) := by
    intro i
    rw [extend_mul_sum n (keepList n fixed) hlt hnd x
      fun c => K ((keepList n fixed).get i) c]
  rw [Finset.sum_congr rfl fun i _ => hinner i]
  simp only [Matrix.dotProduct, Matrix.mulVec, apply_boundary_conditions,
    Matrix.of_apply, Finset.mul_sum]
  apply Finset.sum_congr rfl
  intro i _
  apply Finset.sum_congr rfl
  intro j _
  ring

/-- C5: for every element list with physically valid elements (positive
scalars, unit cosine/sine pair, injective DOF tuples) whose DOF
identifiers index the global matrices (all below `n_dof`), the reduced
system matrices returned by `assemble_system_matrices` are square of size
`n_dof − |fixed DOFs|`, both symmetric, the reduced stiffness matrix is
positive semi-definite, and the reduced mass matrix is positive
definite. -/
theorem assemble_system_matrices_reduced (elements : List ElemQ)
    (hval : ∀ e ∈ elements, 0 < e.modulus_of_elasticity ∧
      0 < e.moment_of_inertia ∧ 0 < e.area ∧ 0 < e.length ∧
      0 < e.density ∧ e.cos_angle ^ 2 + e.sin_angle ^ 2 = 1 ∧
      Function.Injective (dof_element e))
    (hlt : ∀ e ∈ elements, ∀ i, dof_element e i < n_dof elements) :
    (keepList (n_dof elements) (fixedDofs elements)).length =
      n_dof elements - (fixedDofs elements).card ∧
    ((assemble_system_matrices elements).1)ᵀ =
      (assemble_system_matrices elements).1 ∧
    ((assemble_system_matrices elements).2)ᵀ =
      (assemble_system_matrices elements).2 ∧
    (∀ x, 0 ≤ x ⬝ᵥ ((assemble_system_matrices elements).1 *ᵥ x)) ∧
    (∀ x, x ≠ 0 → 0 < x ⬝ᵥ ((assemble_system_matrices elements).2 *ᵥ x)) := by
  have hrange := dofFinset_eq_range elements hlt
  have hfixsub : fixedDofs elements ⊆ Finset.range (n_dof elements) := by
    rw [← hrange]
    exact fixedDofs_subset_dofFinset elements
  have hinj : ∀ e ∈ elements, Function.Injective (dof_element e) :=
    fun e he => (hval e he).2.2.2.2.2.2
  refine ⟨keepList_length _ _ hfixsub, ?_, ?_, ?_, ?_⟩
  · ext i j
    show (assemble_system_matrices elements).1 j i =
      (assemble_system_matrices elements).1 i j
    show (assemble_global elements).1 _ _ = (assemble_global elements).1 _ _
    exact (assemble_global_symm elements _ _).1
  · ext i j
    show (assemble_system_matrices elements).2 j i =
      (assemble_system_matrices elements).2 i j
    show (assemble_global elements).2 _ _ = (assemble_global elements).2 _ _
    exact (assemble_global_symm elements _ _).2
  · intro x
    show 0 ≤ x ⬝ᵥ (apply_boundary_conditions (assemble_global elements).1
      (n_dof elements) (fixedDofs elements) *ᵥ x)
    rw [reduced_quadform,
      (global_quadform elements (n_dof elements) hinj hlt _).1]
    apply List.sum_nonneg
    intro t ht
    rw [List.mem_map] at ht
    obtain ⟨e, he, hte⟩ := ht
    rw [← hte]
    unfold rotated_stiffness
    rw [rotated_quadform]
    obtain ⟨hE, hI, hA, hL, -, -, -⟩ := hval e he
    exact stiffness_quadform_nonneg _ _ _ _ hE hA hL hI _
  · intro x hx
    show 0 < x ⬝ᵥ (apply_boundary_conditions (assemble_global elements).2
      (n_dof elements) (fixedDofs elements) *ᵥ x)
    rw [reduced_quadform,
      (global_quadform elements (n_dof elements) hinj hlt _).2]
    obtain ⟨i0, hi0⟩ := Function.ne_iff.mp hx
    have hd0mem : (keepList (n_dof elements) (fixedDofs elements)).get i0 ∈
        keepList (n_dof elements) (fixedDofs elements) :=
      List.get_mem _ i0.1 i0.2
    have hd0lt := ((keepList_mem _ _ _).mp hd0mem).1
    have hd0dof : (keepList (n_dof elements) (fixedDofs elements)).get i0 ∈
        dofFinset elements := by
      rw [hrange, Finset.mem_range]
      exact hd0lt
    rw [mem_dofFinset] at hd0dof
    obtain ⟨e0, he0, i1, hi1⟩ := hd0dof
    have hxd0 : extendVec (keepList (n_dof elements) (fixedDofs elements)) x
        ((keepList (n_dof elements) (fixedDofs elements)).get i0) = x i0 :=
      extendVec_get _ (keepList_nodup _ _) x i0
    have hterm_pos : 0 <
        (fun i => extendVec (keepList (n_dof elements) (fixedDofs elements))
          x (dof_element e0 i)) ⬝ᵥ
          (rotated_mass e0 *ᵥ fun i =>
            extendVec (keepList (n_dof elements) (fixedDofs elements)) x
              (dof_element e0 i)) := by
      obtain ⟨-, -, hA, hL, hrho, hcs, -⟩ := hval e0 he0
      unfold rotated_mass
      rw [rotated_quadform]
      apply mass_quadform_pos _ _ _ hrho hA hL
      intro hRg
      have hg : (fun i =>
          extendVec (keepList (n_dof elements) (fixedDofs elements)) x
            (dof_element e0 i)) = 0 :=
        create_rotation_matrix_q_mulVec_ne_zero _ _ hcs _ hRg
      have := congrFun hg i1
      rw [hi1, hxd0] at this
      exact hi0 this
    have hterms_nonneg : ∀ t ∈ elements.map fun e =>
        (fun i => extendVec (keepList (n_dof elements) (fixedDofs elements))
          x (dof_element e i)) ⬝ᵥ
          (rotated_mass e *ᵥ fun i =>
            extendVec (keepList (n_dof elements) (fixedDofs elements)) x
              (dof_element e i)), 0 ≤ t := by
      intro t ht
      rw [List.mem_map] at ht
      obtain ⟨e, he, hte⟩ := ht
      rw [← hte]
      obtain ⟨-, -, hA, hL, hrho, -, -⟩ := hval e he
      unfold rotated_mass
      rw [rotated_quadform]
      exact mass_quadform_nonneg _ _ _ (le_of_lt hrho) (le_of_lt hA)
        (le_of_lt hL) _
    have hmem := List.mem_map_of_mem (fun e =>
      (fun i => extendVec (keepList (n_dof elements) (fixedDofs elements))
        x (dof_element e i)) ⬝ᵥ
        (rotated_mass e *ᵥ fun i =>
          extendVec (keepList (n_dof elements) (fixedDofs elements)) x
            (dof_element e i))) he0
    calc (0 : ℚ) < _ := hterm_pos
      _ ≤ _ := List.single_le_sum hterms_nonneg _ hmem

/-- Concrete cantilever element for the C5 witness: unit scalars,
horizontal orientation, start node (DOFs 0, 1, 2) fully fixed, end node
(DOFs 3, 4, 5) free. -/
def elemW : ElemQ :=
  ⟨1, 1, 1, 1, 1, 1, 0, ![0, 1, 2], ![3, 4, 5],
    ![true, true, true], ![false, false, false]⟩

/-- Witness for C5 at the single-element input `[elemW]`: the reduced size
equation holds, the reduced stiffness form is nonnegative at the all-ones
vector and the reduced mass form is positive there. -/
theorem assemble_system_matrices_reduced_witness :
    (keepList (n_dof [elemW]) (fixedDofs [elemW])).length =
      n_dof [elemW] - (fixedDofs [elemW]).card ∧
    0 ≤ (fun _ => (1 : ℚ)) ⬝ᵥ
      ((assemble_system_matrices [elemW]).1 *ᵥ fun _ => (1 : ℚ)) ∧
    0 < (fun _ => (1 : ℚ)) ⬝ᵥ
      ((assemble_system_matrices [elemW]).2 *ᵥ fun _ => (1 : ℚ)) := by
  have hval : ∀ e ∈ [elemW], 0 < e.modulus_of_elasticity ∧
      0 < e.moment_of_inertia ∧ 0 < e.area ∧ 0 < e.length ∧
      0 < e.density ∧ e.cos_angle ^ 2 + e.sin_angle ^ 2 = 1 ∧
      Function.Injective (dof_element e) := by
    intro e he
    rw [List.mem_singleton] at he
    subst he
    refine ⟨by norm_num [elemW], by norm_num [elemW], by norm_num [elemW],
      by norm_num [elemW], by norm_num [elemW], by norm_num [elemW],
      by decide⟩
  have hlt : ∀ e ∈ [elemW], ∀ i, dof_element e i < n_dof [elemW] := by
    intro e he
    rw [List.mem_singleton] at he
    subst he
    decide
  have h := assemble_system_matrices_reduced [elemW] hval hlt
  have hsub : fixedDofs [elemW] ⊆ Finset.range (n_dof [elemW]) := by decide
  have hlen : (keepList (n_dof [elemW]) (fixedDofs [elemW])).length = 3 := by
    rw [keepList_length _ _ hsub,
      show n_dof [elemW] = 6 from by decide,
      show (fixedDofs [elemW]).card = 3 from by decide]
  refine ⟨h.1, h.2.2.2.1 _, h.2.2.2.2 _ ?_⟩
  intro h0
  have h1 := congrFun h0 ⟨0, by rw [hlen]; norm_num⟩
  simp at h1

/-! ## Stress recovery (`fatigue.py`) -/

/-- The gather loop of `displacements_to_stresses`: element displacement
`i` is read from the global vector at the node DOF, and an eliminated
(`None`) DOF contributes zero displacement. -/
def gather_element_displacements (displacements : ℕ → ℚ)
    (dofs : Fin 6 → Option ℕ) : Fin 6 → ℚ := fun i =>
  match dofs i with
  | some d => displacements d
  | none => 0

/-- Embedding of `displacements_to_stresses` (`fatigue.py`): gather the 6
element DOF values (post-reindexing, so a DOF may be `None`), rotate to
local axes, compute reactions `K_local · u_local`, flip the sign of the
second node's reaction triple, and form
`((sigma_n_start, sigma_b_start), (sigma_n_end, sigma_b_end))` with
`sigma_n = N/A` and `sigma_b = M/I·z`.  The element scalars and the
cosine/sine of its angle are passed explicitly. -/
def displacements_to_stresses (displacements : ℕ → ℚ)
    (E A L I c s : ℚ) (dofs : Fin 6 → Option ℕ) (z : ℚ) :
    (ℚ × ℚ) × (ℚ × ℚ) :=
  let stiffness := create_stiffness_matrix E A L I
  let rotation_matrix := create_rotation_matrix_q c s
  let element_displacements :=
    rotation_matrix *ᵥ gather_element_displacements displacements dofs
  let reactions := stiffness *ᵥ element_displacements
  let reactions_signed := fun i : Fin 6 =>
    if 3 ≤ (i : ℕ) then -reactions i else reactions i
  ((reactions_signed 0 / A, reactions_signed 2 / I * z),
    (reactions_signed 3 / A, reactions_signed 5 / I * z))

/-- Embedding of `get_stress_history` (`fatigue.py`): the selector
`"start"` maps to tuple index 0, `"end"` to 1, anything else raises
`ValueError` (embedded as `none`); on the valid path each time-step
column of the displacement history is mapped to the sum of the normal
and bending stress at the selected end. -/
def get_stress_history (displacements : List (ℕ → ℚ))
    (E A L I c s : ℚ) (dofs : Fin 6 → Option ℕ) (z : ℚ) (node : String) :
    Option (List ℚ) :=
  (if node = "start" then some 0
   else if node = "end" then some 1
   else none).map fun index : ℕ =>
    displacements.map fun x_i =>
      let stresses := displacements_to_stresses x_i E A L I c s dofs z
      if index = 0 then stresses.1.1 + stresses.1.2
      else stresses.2.1 + stresses.2.2

/-- C8: `get_stress_history` fails (raises, embedded as `none`) exactly
when the `node` selector is neither `"start"` nor `"end"`; for a valid
selector it returns, for every time step, the sum of the normal and
bending stress at the selected element end. -/
theorem get_stress_history_selector (displacements : List (ℕ → ℚ))
    (E A L I c s : ℚ) (dofs : Fin 6 → Option ℕ) (z : ℚ) (node : String) :
    (get_stress_history displacements E A L I c s dofs z node = none ↔
      node ≠ "start" ∧ node ≠ "end") ∧
    (node = "start" →
      get_stress_history displacements E A L I c s dofs z node =
        some (displacements.map fun x_i =>
          (displacements_to_stresses x_i E A L I c s dofs z).1.1 +
            (displacements_to_stresses x_i E A L I c s dofs z).1.2)) ∧
    (node = "end" →
      get_stress_history displacements E A L I c s dofs z node =
        some (displacements.map fun x_i =>
          (displacements_to_stresses x_i E A L I c s dofs z).2.1 +
            (displacements_to_stresses x_i E A L I c s dofs z).2.2)) := by
  refine ⟨?_, ?_, ?_⟩
  · by_cases h1 : node = "start"
    · simp [get_stress_history, h1]
    · by_cases h2 : node = "end"
      · simp [get_stress_history, h1, h2]
      · simp [get_stress_history, h1, h2]
  · intro h1
    simp [get_stress_history, h1]
  · intro h2
    by_cases h1 : node = "start"
    · rw [h1] at h2
      exact absurd h2 (by decide)
    · simp [get_stress_history, h1, h2]

/-- The valid selector `"start"` as a named constant for the witness. -/
def selStartW : String := "start"

/-- An invalid selector for the witness. -/
def selBadW : String := "mid"

/-- A one-column displacement history for the witness. -/
def dispW : List (ℕ → ℚ) := [fun _ => 0]

/-- Post-reindexing DOF tuple for the witness: all DOFs eliminated. -/
def dofsW : Fin 6 → Option ℕ := fun _ => none

/-- Witness for C8: at a concrete one-column history, the selector
`"start"` yields the per-time-step stress sums and the selector `"mid"`
yields the error result. -/
theorem get_stress_history_selector_witness :
    get_stress_history dispW 1 1 1 1 1 0 dofsW 0 selStartW =
      some (dispW.map fun x_i =>
        (displacements_to_stresses x_i 1 1 1 1 1 0 dofsW 0).1.1 +
          (displacements_to_stresses x_i 1 1 1 1 1 0 dofsW 0).1.2) ∧
    get_stress_history dispW 1 1 1 1 1 0 dofsW 0 selBadW = none :=
  ⟨(get_stress_history_selector dispW 1 1 1 1 1 0 dofsW 0 selStartW).2.1
      rfl,
    (get_stress_history_selector dispW 1 1 1 1 1 0 dofsW 0 selBadW).1.mpr
      (by decide)⟩

end PyBeam
